import Mathlib

set_option maxRecDepth 8000

/-!
Shallow embedding of `algorithm.py` from the D3CND repository: a genetic
algorithm that searches exponent triples (encoded as fixed-width binary
genes) for an ODE model of networked dynamics, fitting linear coefficients
by least squares.

Numeric values (fitness, mean-squared error, matrix entries, random draws)
are modelled as exact rationals `ℚ`; Python's floating-point least-squares
solver (`np.linalg.lstsq`) and real exponentiation (`**` on floats) are kept
abstract as parameters, since the claims under study are about the
surrounding algorithmic structure, not about floating-point rounding.
Chromosome bits are modelled as `Bool` (the Python code only ever stores the
ints 0 and 1, and only ever branches on their truthiness).
-/

/-- Module constant `NUMBER_OF_NODES = 10` (algorithm.py:22). -/
def NUMBER_OF_NODES : ℕ := 10

/-- Module constant `TIME_FRAMES = 20` (algorithm.py:24). -/
def TIME_FRAMES : ℕ := 20

/-- Module constant `CHROMOSOME_SIZE = 3` (algorithm.py:25): number of genes
(tunable exponents) per chromosome. -/
def CHROMOSOME_SIZE : ℕ := 3

/-- Module constant `GENE_SIZE = 12` (algorithm.py:26): bits per gene. -/
def GENE_SIZE : ℕ := 12

/-- Module constant `MUTATION_CHANCE = 0.1` (algorithm.py:27). -/
def MUTATION_CHANCE : ℚ := 1 / 10

/-- Module constant `POPULATION = 100` (algorithm.py:28). -/
def POPULATION : ℕ := 100

/-- Module constant `CHILDREN = 10` (algorithm.py:29). -/
def CHILDREN : ℕ := 10

/-- Module constant `TERMINATION_CONDITION = 1000` (algorithm.py:30): number
of iterations allowed without improvement. -/
def TERMINATION_CONDITION : ℕ := 1000

/-- Module constant `POWER_RANGE = (0, 2)` (algorithm.py:31). -/
def POWER_RANGE : ℚ × ℚ := (0, 2)

/-- Module constant `STEP = (POWER_RANGE[1] - POWER_RANGE[0]) / 2 ** GENE_SIZE`
(algorithm.py:34). -/
def STEP : ℚ := (POWER_RANGE.2 - POWER_RANGE.1) / 2 ^ GENE_SIZE

/-- Numeric value of a chromosome bit: the Python code stores bits as the
ints 0 and 1. -/
def bitVal (b : Bool) : ℕ := cond b 1 0

/-- Complete individual (the dict built at algorithm.py:72-78): chromosome,
decoded powers, fitted coefficients, mean-squared error and fitness. -/
structure Individual where
  chromosome : List Bool
  powers : List ℚ
  coefficients : List ℚ
  mse : ℚ
  fitness : ℚ
deriving DecidableEq, Inhabited

/-- Value of gene `i` of a chromosome, read most-significant-bit first
(algorithm.py:62-64): `binary += chromosome[i * GENE_SIZE + j] * 2 ** (GENE_SIZE - j - 1)`
accumulated over `j in range(GENE_SIZE)`. -/
def geneBinary (c : List Bool) (i : ℕ) : ℕ :=
  (List.range GENE_SIZE).foldl
    (fun acc j => acc + bitVal (c.getD (i * GENE_SIZE + j) false) * 2 ^ (GENE_SIZE - j - 1)) 0

/-- Decoded power of gene `i` (algorithm.py:65):
`power = POWER_RANGE[0] + binary * STEP`. -/
def decodePower (c : List Bool) (i : ℕ) : ℚ :=
  POWER_RANGE.1 + (geneBinary c i : ℚ) * STEP

/-- Decoded power list of a chromosome (algorithm.py:60-66): one power per
gene, `i in range(CHROMOSOME_SIZE)`. -/
def decodePowers (c : List Bool) : List ℚ :=
  (List.range CHROMOSOME_SIZE).map (decodePower c)

/-- Fitness from the mean-squared error (algorithm.py:77): the source
computes `1 / mse` with no guard on `mse`; a zero divisor reaches the
division unhandled, which the exact-rational embedding records as `none`
(no defined fitness value is produced by the code itself). -/
def fitnessOfMse (mse : ℚ) : Option ℚ :=
  if mse = 0 then none else some (1 / mse)

/-- Embedding of `_get_complete_individual` (algorithm.py:59-78). The powers
are decoded from the chromosome exactly as in the source; `coefficients` and
`mse` — the outputs of the floating-point computations `np.linalg.lstsq`
(line 69) and `np.mean((stacked_y - y_hat) ** 2)` (line 71) — enter as
abstract parameters. The fitness field is `1 / mse` (line 77), unguarded. -/
def getCompleteIndividual (chromosome : List Bool) (coefficients : List ℚ)
    (mse : ℚ) : Option Individual :=
  (fitnessOfMse mse).map fun f =>
    { chromosome := chromosome
      powers := decodePowers chromosome
      coefficients := coefficients
      mse := mse
      fitness := f }

/-- Embedding of `Population._crossover` (algorithm.py:110-114) with the
random draw `crossover_point = random.randint(0, CHROMOSOME_SIZE * GENE_SIZE - 1)`
made an explicit parameter `k`:
`offspring_chromosome = chromosome1[:crossover_point] + chromosome2[crossover_point:]`. -/
def crossover (chromosome1 chromosome2 : List Bool) (k : ℕ) : List Bool :=
  chromosome1.take k ++ chromosome2.drop k

/-- Embedding of `Population._mutation` (algorithm.py:116-124) with the
per-bit uniform draws made an explicit parameter: bit `i` is flipped when
`draws i < MUTATION_CHANCE` (`0 if chromosome[i] else 1`), else copied. -/
def mutation (chromosome : List Bool) (draws : ℕ → ℚ) : List Bool :=
  (List.range (CHROMOSOME_SIZE * GENE_SIZE)).map fun i =>
    if draws i < MUTATION_CHANCE then !(chromosome.getD i false) else chromosome.getD i false

/-- Loop of `Population._select_random_individual` (algorithm.py:131-135):
state `sel` is `selected_index`, `sum` is `sum_fitness`, `rest` is the list
of individuals not yet accumulated. Each round checks
`sum_fitness / total_fitness > random_value` and on failure advances
`selected_index` and accumulates the next fitness. -/
def selectGo (total r : ℚ) : ℕ → ℚ → List Individual → ℕ
  | sel, _, [] => sel
  | sel, sum, ind :: rest =>
    if r < sum / total then sel else selectGo total r (sel + 1) (sum + ind.fitness) rest

/-- Embedding of `Population._select_random_individual` (algorithm.py:126-136)
with the draw `random.random()` made an explicit parameter `r`:
`selected_index = 0`, `sum_fitness = sorted_individuals[0]['fitness']`, then
the loop over `range(1, len(sorted_individuals))`. The source indexes
`sorted_individuals[0]` and so faults on an empty list; the `headD` default
below is never reached under the claims' nonemptiness hypothesis. -/
def selectRandomIndividual (sortedIndividuals : List Individual) (total r : ℚ) : ℕ :=
  selectGo total r 0 (sortedIndividuals.headD default).fitness sortedIndividuals.tail

/-- Cumulative fitness of individuals `0 .. k` of a list. -/
def cumFitness (s : List Individual) (k : ℕ) : ℚ :=
  ((s.take (k + 1)).map (fun ind => ind.fitness)).sum

/-- Descending-fitness order used by `sorted(individuals, key=lambda ind: -1 * ind['fitness'])`
(algorithm.py:140, 156): `a` precedes `b` when `b`'s fitness is at most `a`'s. -/
def fitGE (a b : Individual) : Prop := b.fitness ≤ a.fitness

instance : DecidableRel fitGE := fun a b => inferInstanceAs (Decidable (b.fitness ≤ a.fitness))

instance : IsTotal Individual fitGE := ⟨fun a b => (le_total b.fitness a.fitness)⟩

instance : IsTrans Individual fitGE := ⟨fun _ _ _ hab hbc => le_trans hbc hab⟩

/-- Python's `sorted` with key `-fitness` is a stable sort by descending
fitness; a stable sort's output is uniquely determined by the key order, and
insertion sort (Mathlib's `List.insertionSort`) is stable, so it denotes the
same list. -/
def sortIndividuals (l : List Individual) : List Individual :=
  l.insertionSort fitGE

/-- Total fitness `sum([individual['fitness'] for individual in self.individuals])`
(algorithm.py:141). -/
def totalFitness (pop : List Individual) : ℚ :=
  (pop.map (fun ind => ind.fitness)).sum

/-- Elitist replacement step of `Population.run_single_iteration`
(algorithm.py:156-157): merge the current individuals with the completed
children, sort the union by descending fitness, truncate to `size`. The
`children` parameter stands for the completed offspring produced by the
selection/crossover/mutation loop (lines 143-154). -/
def runSingleIteration (size : ℕ) (pop children : List Individual) : List Individual :=
  (sortIndividuals (pop ++ children)).take size

/-- Fittest individual returned by `run_single_iteration`
(algorithm.py:159): `self.individuals[0]`. The source faults on an empty
list; the default is never reached under the claims' hypotheses. -/
def fittestOf (pop : List Individual) : Individual :=
  pop.headD default

/-- Parent-chromosome fetch of `Population.run_single_iteration`
(algorithm.py:145-149): two selection indices are computed over
`sorted_individuals`, and — when distinct — the chromosomes are read from
`self.individuals` (the stored, possibly unsorted, population), exactly as
the source does. Draws `r1`, `r2` are the two `random.random()` values. -/
def parentChromosomes (pop : List Individual) (r1 r2 : ℚ) : Option (List Bool × List Bool) :=
  let sortedIndividuals := sortIndividuals pop
  let total := totalFitness pop
  let i1 := selectRandomIndividual sortedIndividuals total r1
  let i2 := selectRandomIndividual sortedIndividuals total r2
  if i1 ≠ i2 then
    some ((pop.getD i1 default).chromosome, (pop.getD i2 default).chromosome)
  else
    none

/-- Modelled from the spec (refinement comparison for the parent fetch):
"computing selection indices over the sorted list and then fetching the
parent chromosomes must denote those same selected individuals" — i.e. the
chromosomes are read from `sorted_individuals` at the selected indices. -/
def specSelectedParentChromosomes (pop : List Individual) (r1 r2 : ℚ) :
    Option (List Bool × List Bool) :=
  let sortedIndividuals := sortIndividuals pop
  let total := totalFitness pop
  let i1 := selectRandomIndividual sortedIndividuals total r1
  let i2 := selectRandomIndividual sortedIndividuals total r2
  if i1 ≠ i2 then
    some ((sortedIndividuals.getD i1 default).chromosome,
      (sortedIndividuals.getD i2 default).chromosome)
  else
    none

/-- Initial chromosomes of `Population._get_initial_individuals`
(algorithm.py:100-108) with the random bits made an explicit parameter:
`size` chromosomes, each `[random.randint(0, 1) for _ in range(CHROMOSOME_SIZE * GENE_SIZE)]`. -/
def initialChromosomes (size : ℕ) (bits : ℕ → ℕ → Bool) : List (List Bool) :=
  (List.range size).map fun i => (List.range (CHROMOSOME_SIZE * GENE_SIZE)).map fun j => bits i j

/-- Initial population of `Population.__init__` (algorithm.py:87):
`self._get_complete_individuals(self._get_initial_individuals())`. The
parameter `evalInd` stands for `_get_complete_individual(x, y, A, ·)` with
the run's fixed trajectory, derivative and adjacency inputs. -/
def initPopulation (evalInd : List Bool → Individual) (size : ℕ)
    (bits : ℕ → ℕ → Bool) : List Individual :=
  (initialChromosomes size bits).map evalInd

/-- In-neighbors of node `i` contributing coupling terms in `_get_theta`
(algorithm.py:46-50): the nodes `j in range(n)` with `j != node_index and
adjacency_matrix[j, node_index]` (numpy truthiness: a nonzero entry). The
module constant `NUMBER_OF_NODES` is generalized to a parameter `n`. -/
def couplingNeighbors (n : ℕ) (A : ℕ → ℕ → ℚ) (i : ℕ) : List ℕ :=
  (List.range n).filter fun j => decide (j ≠ i ∧ A j i ≠ 0)

/-- Entry `t` of the coupling column of node `i` in `_get_theta`
(algorithm.py:49-52): `np.sum(terms, axis=0)` where each term is
`adjacency_matrix[j, node_index] * x_i ** powers[1] * x_j ** powers[2]`.
`x t j` is entry `x[t, j]` of the trajectory matrix and `pw` abstracts
numpy's elementwise real power `**`. -/
def couplingColumnEntry (n : ℕ) (x : ℕ → ℕ → ℚ) (A : ℕ → ℕ → ℚ)
    (pw : ℚ → ℚ → ℚ) (powers : List ℚ) (i t : ℕ) : ℚ :=
  ((couplingNeighbors n A i).map
    (fun j => A j i * pw (x t i) (powers.getD 1 0) * pw (x t j) (powers.getD 2 0))).sum

/-- Row `t` of the design block of node `i` in `_get_theta`
(algorithm.py:41-54): `np.column_stack(column_list)` turns the column list
`[np.ones(T), x_i ** powers[0]]` — extended by the coupling column exactly
when `terms` is nonempty — into rows `[1, x[t,i] ** powers[0]]` or
`[1, x[t,i] ** powers[0], coupling[t]]`. -/
def thetaRow (n : ℕ) (x : ℕ → ℕ → ℚ) (A : ℕ → ℕ → ℚ) (pw : ℚ → ℚ → ℚ)
    (powers : List ℚ) (i t : ℕ) : List ℚ :=
  [1, pw (x t i) (powers.getD 0 0)] ++
    (if couplingNeighbors n A i = [] then [] else [couplingColumnEntry n x A pw powers i t])

/-- Design block of node `i` over the first `T` time samples
(`x[:TIME_FRAMES, node_index]`, algorithm.py:40-54), as its list of rows.
The module constant `TIME_FRAMES` is generalized to a parameter `T`. -/
def nodeTheta (n T : ℕ) (x : ℕ → ℕ → ℚ) (A : ℕ → ℕ → ℚ) (pw : ℚ → ℚ → ℚ)
    (powers : List ℚ) (i : ℕ) : List (List ℚ) :=
  (List.range T).map (thetaRow n x A pw powers i)

/-- Embedding of `_get_theta` (algorithm.py:37-56): the per-node design
blocks stacked row-wise by `np.concatenate(theta_list)`. -/
def getTheta (n T : ℕ) (x : ℕ → ℕ → ℚ) (A : ℕ → ℕ → ℚ) (pw : ℚ → ℚ → ℚ)
    (powers : List ℚ) : List (List ℚ) :=
  ((List.range n).map (nodeTheta n T x A pw powers)).flatten

/-- State of the driver loop in `run` (algorithm.py:186-198): the iteration
counter, the index of the last improvement (`best_index`), the best fitness
seen so far (`best_fitness`) and the current population. -/
structure DriverState where
  counter : ℕ
  bestIndex : ℕ
  bestFitness : ℚ
  pop : List Individual

/-- Body of the driver's while loop (algorithm.py:192-198): increment the
counter, run one generation, and record the new best fitness and its index
when the returned fittest individual strictly improves on `best_fitness`.
The chromosomes of this iteration's offspring (produced by the
selection/crossover/mutation loop, abstracted as `childrenChroms`) are
completed through `evalInd` exactly as `_get_complete_individuals` does. -/
def driverStep (evalInd : List Bool → Individual) (size : ℕ)
    (childrenChroms : List (List Bool)) (s : DriverState) : DriverState :=
  let newPop := runSingleIteration size s.pop (childrenChroms.map evalInd)
  let fittest := fittestOf newPop
  if s.bestFitness < fittest.fitness then
    ⟨s.counter + 1, s.counter + 1, fittest.fitness, newPop⟩
  else
    ⟨s.counter + 1, s.bestIndex, s.bestFitness, newPop⟩

/-- Iterated driver loop body: `driverRun evalInd size m cs s` is the state
after `m` iterations of the loop of `run` (algorithm.py:192-198), where
`cs k` gives the offspring chromosomes produced during iteration `k`. -/
def driverRun (evalInd : List Bool → Individual) (size : ℕ) :
    ℕ → (ℕ → List (List Bool)) → DriverState → DriverState
  | 0, _, s => s
  | m + 1, cs, s =>
    driverRun evalInd size m (fun k => cs (k + 1)) (driverStep evalInd size (cs 0) s)

/-- Chromosome of fixed length `CHROMOSOME_SIZE * GENE_SIZE` given by a bit
function; used to enumerate the (finitely many) chromosomes. -/
def chromFromFn (f : Fin (CHROMOSOME_SIZE * GENE_SIZE) → Bool) : List Bool :=
  List.ofFn f

/-- Set of fitness values attainable by complete individuals: the image of
the finitely many chromosomes (`2 ^ (CHROMOSOME_SIZE * GENE_SIZE)` of them)
under the fitness of the completed individual. -/
def fitnessValues (evalInd : List Bool → Individual) : Finset ℚ :=
  Finset.image (fun f => (evalInd (chromFromFn f)).fitness) Finset.univ

/-- Termination measure for the driver loop: the number of attainable
fitness values still strictly above the recorded best, weighted by the
stagnation threshold, plus the remaining stagnation budget. -/
def driverMeasure (evalInd : List Bool → Individual) (s : DriverState) : ℕ :=
  ((fitnessValues evalInd).filter (fun v => s.bestFitness < v)).card * TERMINATION_CONDITION +
    (TERMINATION_CONDITION - (s.counter - s.bestIndex))

/-- Invariant of the driver loop states: a nonempty population whose
members' fitnesses are attainable fitness values, with the last-improvement
index not past the counter and the stagnation count within the threshold. -/
def DriverInv (evalInd : List Bool → Individual) (s : DriverState) : Prop :=
  s.pop ≠ [] ∧ (∀ ind ∈ s.pop, ind.fitness ∈ fitnessValues evalInd) ∧
    s.bestIndex ≤ s.counter ∧ s.counter - s.bestIndex ≤ TERMINATION_CONDITION

/-! ## Helper lemmas -/

/-- Accumulating pointwise-bounded summands from a bounded accumulator stays
bounded. -/
theorem foldl_add_le_foldl_add (f g : ℕ → ℕ) (l : List ℕ) (hfg : ∀ j ∈ l, f j ≤ g j) :
    ∀ a b : ℕ, a ≤ b →
      l.foldl (fun acc j => acc + f j) a ≤ l.foldl (fun acc j => acc + g j) b := by
  induction l with
  | nil => intro a b h; simpa using h
  | cons c t ih =>
    intro a b h
    simp only [List.foldl_cons]
    exact ih (fun j hj => hfg j (by simp [hj])) _ _ (Nat.add_le_add h (hfg c (by simp)))

/-- Chromosome bits contribute at most their place value. -/
theorem bitVal_le_one (b : Bool) : bitVal b ≤ 1 := by cases b <;> simp [bitVal]

/-- Gene values are bounded by the gene width: `geneBinary c i ≤ 2 ^ GENE_SIZE - 1`. -/
theorem geneBinary_le (c : List Bool) (i : ℕ) : geneBinary c i ≤ 2 ^ GENE_SIZE - 1 := by
  have h := foldl_add_le_foldl_add
    (fun j => bitVal (c.getD (i * GENE_SIZE + j) false) * 2 ^ (GENE_SIZE - j - 1))
    (fun j => 2 ^ (GENE_SIZE - j - 1)) (List.range GENE_SIZE)
    (fun j _ => by
      calc bitVal (c.getD (i * GENE_SIZE + j) false) * 2 ^ (GENE_SIZE - j - 1)
          ≤ 1 * 2 ^ (GENE_SIZE - j - 1) :=
            Nat.mul_le_mul_right _ (bitVal_le_one _)
        _ = 2 ^ (GENE_SIZE - j - 1) := Nat.one_mul _)
    0 0 le_rfl
  have hbound : (List.range GENE_SIZE).foldl (fun acc j => acc + 2 ^ (GENE_SIZE - j - 1)) 0 =
      2 ^ GENE_SIZE - 1 := by decide
  calc geneBinary c i
      ≤ (List.range GENE_SIZE).foldl (fun acc j => acc + 2 ^ (GENE_SIZE - j - 1)) 0 := h
    _ = 2 ^ GENE_SIZE - 1 := hbound

/-- Length of the crossover offspring. -/
theorem crossover_length (c1 c2 : List Bool) (k : ℕ)
    (h1 : c1.length = CHROMOSOME_SIZE * GENE_SIZE)
    (h2 : c2.length = CHROMOSOME_SIZE * GENE_SIZE)
    (hk : k < CHROMOSOME_SIZE * GENE_SIZE) :
    (crossover c1 c2 k).length = CHROMOSOME_SIZE * GENE_SIZE := by
  simp only [crossover, List.length_append, List.length_take, List.length_drop, h1, h2]
  omega

/-- Bitwise characterization of the crossover offspring: bits strictly
before the crossover point come from parent 1, bits at or after it from
parent 2. -/
theorem crossover_getD (c1 c2 : List Bool) (k : ℕ)
    (h1 : c1.length = CHROMOSOME_SIZE * GENE_SIZE)
    (h2 : c2.length = CHROMOSOME_SIZE * GENE_SIZE)
    (hk : k < CHROMOSOME_SIZE * GENE_SIZE) :
    ∀ i < CHROMOSOME_SIZE * GENE_SIZE,
      (crossover c1 c2 k).getD i false =
        if i < k then c1.getD i false else c2.getD i false := by
  intro i hi
  have hlen : (c1.take k).length = k := by
    rw [List.length_take, h1]; omega
  by_cases hik : i < k
  · have h3 : i < (c1.take k).length := by omega
    rw [List.getD_eq_getElem?_getD, crossover, List.getElem?_append, if_pos h3,
      List.getElem?_take, if_pos hik, if_pos hik, List.getD_eq_getElem?_getD]
  · have h3 : ¬ i < (c1.take k).length := by omega
    rw [List.getD_eq_getElem?_getD, crossover, List.getElem?_append, if_neg h3,
      List.getElem?_drop, hlen, if_neg hik, List.getD_eq_getElem?_getD]
    have : k + (i - k) = i := by omega
    rw [this]

/-! ## Claim theorems -/

/-- C1 (counterexample): at `mse = 0` the unguarded division `fitness = 1 / mse`
of `_get_complete_individual` produces no fitness value at all in the exact
embedding — no documented large sentinel and no positive infinity — so
building the complete individual does not handle the division explicitly. -/
theorem zero_mse_no_sentinel :
    getCompleteIndividual (List.replicate (CHROMOSOME_SIZE * GENE_SIZE) false) [] 0 = none := by
  decide

/-- C1 (amended): for every chromosome with `mse > 0`, the complete
individual is built with fitness field exactly `1 / mse`; `mse = 0` is not
handled explicitly — the division is reached unguarded. -/
theorem positive_mse_fitness (c : List Bool) (coeffs : List ℚ) (mse : ℚ) (h : 0 < mse) :
    getCompleteIndividual c coeffs mse =
      some { chromosome := c, powers := decodePowers c, coefficients := coeffs,
             mse := mse, fitness := 1 / mse } := by
  simp [getCompleteIndividual, fitnessOfMse, h.ne']

/-- Witness for C1's amended theorem at `mse = 1`. -/
theorem positive_mse_fitness_witness :
    0 < (1 : ℚ) ∧
    getCompleteIndividual (List.replicate (CHROMOSOME_SIZE * GENE_SIZE) false) [] 1 =
      some { chromosome := List.replicate (CHROMOSOME_SIZE * GENE_SIZE) false,
             powers := decodePowers (List.replicate (CHROMOSOME_SIZE * GENE_SIZE) false),
             coefficients := [], mse := 1, fitness := 1 / 1 } :=
  ⟨by norm_num, positive_mse_fitness (List.replicate (CHROMOSOME_SIZE * GENE_SIZE) false) [] 1
    (by norm_num)⟩

/-- C6: decoding is a pure function of the chromosome; each gene's power is
`min_power + b * step` for its MSB-first unsigned value `b`, every decoded
power lies in the closed range `[min_power, max_power]`, the all-zero
chromosome decodes every power to exactly `min_power`, and the all-ones
chromosome decodes every power to exactly `max_power - step`. -/
theorem decode_codec_spec :
    (∀ c : List Bool, ∀ p ∈ decodePowers c, POWER_RANGE.1 ≤ p ∧ p ≤ POWER_RANGE.2) ∧
    decodePowers (List.replicate (CHROMOSOME_SIZE * GENE_SIZE) false) =
      List.replicate CHROMOSOME_SIZE POWER_RANGE.1 ∧
    decodePowers (List.replicate (CHROMOSOME_SIZE * GENE_SIZE) true) =
      List.replicate CHROMOSOME_SIZE (POWER_RANGE.2 - STEP) ∧
    ∀ (c : List Bool) (i : ℕ), decodePower c i = POWER_RANGE.1 + (geneBinary c i : ℚ) * STEP := by
  have hzero : ∀ i, geneBinary (List.replicate (CHROMOSOME_SIZE * GENE_SIZE) false) i = 0 := by
    intro i
    rw [geneBinary]
    have h : ∀ j, (List.replicate (CHROMOSOME_SIZE * GENE_SIZE) false).getD
        (i * GENE_SIZE + j) false = false := by
      intro j
      rw [List.getD_eq_getElem?_getD, List.getElem?_replicate]
      split <;> rfl
    have h2 : ∀ (l : List ℕ) (a : ℕ),
        l.foldl (fun acc j => acc + bitVal ((List.replicate (CHROMOSOME_SIZE * GENE_SIZE)
          false).getD (i * GENE_SIZE + j) false) * 2 ^ (GENE_SIZE - j - 1)) a = a := by
      intro l
      induction l with
      | nil => intro a; rfl
      | cons d t ih =>
        intro a
        rw [List.foldl_cons, h d]
        have hz : bitVal false * 2 ^ (GENE_SIZE - d - 1) = 0 := by simp [bitVal]
        rw [hz, Nat.add_zero]
        exact ih a
    exact h2 _ 0
  refine ⟨?_, ?_, ?_, fun c i => rfl⟩
  · intro c p hp
    simp only [decodePowers, List.mem_map] at hp
    obtain ⟨i, _, rfl⟩ := hp
    have hb : (geneBinary c i : ℚ) ≤ 4095 := by
      have h1 := geneBinary_le c i
      have h2 : geneBinary c i ≤ 4095 := by
        simpa [GENE_SIZE] using h1
      exact_mod_cast h2
    have hb0 : (0 : ℚ) ≤ (geneBinary c i : ℚ) := Nat.cast_nonneg _
    have hstep : STEP = 1 / 2048 := by
      rw [STEP, POWER_RANGE, GENE_SIZE]
      norm_num
    constructor
    · rw [decodePower, hstep, POWER_RANGE]
      have h0 : 0 ≤ (geneBinary c i : ℚ) * (1 / 2048) := by positivity
      simp only [Prod.fst]
      linarith
    · rw [decodePower, hstep, POWER_RANGE]
      show (0 : ℚ) + (geneBinary c i : ℚ) * (1 / 2048) ≤ 2
      linarith
  · show List.map (decodePower (List.replicate (CHROMOSOME_SIZE * GENE_SIZE) false))
      (List.range CHROMOSOME_SIZE) = _
    have h : ∀ i, decodePower (List.replicate (CHROMOSOME_SIZE * GENE_SIZE) false) i =
        POWER_RANGE.1 := by
      intro i
      rw [decodePower, hzero i]
      norm_num
    rw [show List.range CHROMOSOME_SIZE = [0, 1, 2] from rfl]
    simp only [List.map_cons, List.map_nil, h 0, h 1, h 2]
    rfl
  · have hone : ∀ i < CHROMOSOME_SIZE,
        geneBinary (List.replicate (CHROMOSOME_SIZE * GENE_SIZE) true) i = 4095 := by decide
    show List.map (decodePower (List.replicate (CHROMOSOME_SIZE * GENE_SIZE) true))
      (List.range CHROMOSOME_SIZE) = _
    have h : ∀ i < CHROMOSOME_SIZE,
        decodePower (List.replicate (CHROMOSOME_SIZE * GENE_SIZE) true) i =
          POWER_RANGE.2 - STEP := by
      intro i hi
      rw [decodePower, hone i hi, STEP, POWER_RANGE, GENE_SIZE]
      norm_num
    rw [show List.range CHROMOSOME_SIZE = [0, 1, 2] from rfl]
    simp only [List.map_cons, List.map_nil,
      h 0 (by norm_num [CHROMOSOME_SIZE]), h 1 (by norm_num [CHROMOSOME_SIZE]),
      h 2 (by norm_num [CHROMOSOME_SIZE])]
    rfl

/-- Witness for C6 at the all-ones chromosome. -/
theorem decode_codec_spec_witness :
    POWER_RANGE.1 ≤ decodePower (List.replicate (CHROMOSOME_SIZE * GENE_SIZE) true) 0 ∧
    decodePower (List.replicate (CHROMOSOME_SIZE * GENE_SIZE) true) 0 ≤ POWER_RANGE.2 :=
  decode_codec_spec.1 (List.replicate (CHROMOSOME_SIZE * GENE_SIZE) true)
    (decodePower (List.replicate (CHROMOSOME_SIZE * GENE_SIZE) true) 0)
    (List.mem_map.mpr ⟨0, List.mem_range.mpr (by norm_num [CHROMOSOME_SIZE]), rfl⟩)

/-- C9: single-point crossover with a crossover point drawn from
`{0, …, L-1}` produces an offspring of exactly the parents' length `L`, with
every bit strictly before the crossover point from parent 1 and every bit at
or after it from parent 2. -/
theorem crossover_spec (c1 c2 : List Bool) (k : ℕ)
    (h1 : c1.length = CHROMOSOME_SIZE * GENE_SIZE)
    (h2 : c2.length = CHROMOSOME_SIZE * GENE_SIZE)
    (hk : k < CHROMOSOME_SIZE * GENE_SIZE) :
    (crossover c1 c2 k).length = CHROMOSOME_SIZE * GENE_SIZE ∧
    ∀ i < CHROMOSOME_SIZE * GENE_SIZE,
      (crossover c1 c2 k).getD i false =
        if i < k then c1.getD i false else c2.getD i false :=
  ⟨crossover_length c1 c2 k h1 h2 hk, crossover_getD c1 c2 k h1 h2 hk⟩

/-- Witness for C9 at concrete parents and crossover point 5. -/
theorem crossover_spec_witness :
    (crossover (List.replicate (CHROMOSOME_SIZE * GENE_SIZE) false)
        (List.replicate (CHROMOSOME_SIZE * GENE_SIZE) true) 5).length =
      CHROMOSOME_SIZE * GENE_SIZE ∧
    (crossover (List.replicate (CHROMOSOME_SIZE * GENE_SIZE) false)
        (List.replicate (CHROMOSOME_SIZE * GENE_SIZE) true) 5).getD 7 false =
      (if 7 < 5 then (List.replicate (CHROMOSOME_SIZE * GENE_SIZE) false).getD 7 false
        else (List.replicate (CHROMOSOME_SIZE * GENE_SIZE) true).getD 7 false) :=
  ⟨(crossover_spec _ _ 5 (by decide) (by decide) (by decide)).1,
   (crossover_spec _ _ 5 (by decide) (by decide) (by decide)).2 7 (by decide)⟩

/-- C10: the crossover point can never equal the chromosome length, so the
offspring's final bit always comes from parent 2; a crossover point of 0
yields an exact copy of parent 2, and whenever the parents differ in their
last bit the offspring cannot be an exact copy of parent 1. -/
theorem crossover_last_bit (c1 c2 : List Bool) (k : ℕ)
    (h1 : c1.length = CHROMOSOME_SIZE * GENE_SIZE)
    (h2 : c2.length = CHROMOSOME_SIZE * GENE_SIZE)
    (hk : k < CHROMOSOME_SIZE * GENE_SIZE) :
    (crossover c1 c2 k).getD (CHROMOSOME_SIZE * GENE_SIZE - 1) false =
      c2.getD (CHROMOSOME_SIZE * GENE_SIZE - 1) false ∧
    crossover c1 c2 0 = c2 ∧
    (c1.getD (CHROMOSOME_SIZE * GENE_SIZE - 1) false ≠
        c2.getD (CHROMOSOME_SIZE * GENE_SIZE - 1) false →
      crossover c1 c2 k ≠ c1) := by
  have hlast : (crossover c1 c2 k).getD (CHROMOSOME_SIZE * GENE_SIZE - 1) false =
      c2.getD (CHROMOSOME_SIZE * GENE_SIZE - 1) false := by
    have h := crossover_getD c1 c2 k h1 h2 hk (CHROMOSOME_SIZE * GENE_SIZE - 1) (by omega)
    rw [h, if_neg (by omega)]
  refine ⟨hlast, by simp [crossover], fun hne heq => hne ?_⟩
  rw [← heq, hlast]

/-- Witness for C10 at concrete parents. -/
theorem crossover_last_bit_witness :
    crossover (List.replicate (CHROMOSOME_SIZE * GENE_SIZE) false)
        (List.replicate (CHROMOSOME_SIZE * GENE_SIZE) true) 5 ≠
      List.replicate (CHROMOSOME_SIZE * GENE_SIZE) false ∧
    crossover (List.replicate (CHROMOSOME_SIZE * GENE_SIZE) false)
        (List.replicate (CHROMOSOME_SIZE * GENE_SIZE) true) 0 =
      List.replicate (CHROMOSOME_SIZE * GENE_SIZE) true :=
  ⟨(crossover_last_bit _ _ 5 (by decide) (by decide) (by decide)).2.2 (by decide),
   (crossover_last_bit _ _ 0 (by decide) (by decide) (by decide)).2.1⟩

/-- Elitist replacement preserves the population size: taking `size` from
the sorted union of a size-`size` population and any children list yields
exactly `size` individuals. -/
theorem runSingleIteration_length (size : ℕ) (pop children : List Individual)
    (h : pop.length = size) : (runSingleIteration size pop children).length = size := by
  rw [runSingleIteration, List.length_take, sortIndividuals,
    (List.perm_insertionSort fitGE (pop ++ children)).length_eq, List.length_append, h]
  omega

/-- C8: the population always contains exactly `size` individuals —
immediately after initialization, and again after every
`run_single_iteration` (merge with the offspring, sort, truncate). -/
theorem population_size_invariant (evalInd : List Bool → Individual) (size : ℕ)
    (bits : ℕ → ℕ → Bool) :
    (initPopulation evalInd size bits).length = size ∧
    ∀ pop children : List Individual, pop.length = size →
      (runSingleIteration size pop children).length = size := by
  refine ⟨?_, fun pop children h => runSingleIteration_length size pop children h⟩
  simp [initPopulation, initialChromosomes]

/-- Witness for C8 at a two-individual population. -/
theorem population_size_invariant_witness :
    (initPopulation (fun _ => default) 2 (fun _ _ => false)).length = 2 ∧
    (runSingleIteration 1 [default] []).length = 1 :=
  ⟨(population_size_invariant (fun _ => default) 2 (fun _ _ => false)).1,
   (population_size_invariant (fun _ => default) 1 (fun _ _ => false)).2 [default] [] rfl⟩

/-- Rational list sums of nonpositive entries are nonpositive. -/
theorem list_sum_nonpos (l : List ℚ) (h : ∀ x ∈ l, x ≤ 0) : l.sum ≤ 0 := by
  induction l with
  | nil => simp
  | cons a t ih =>
    simp only [List.sum_cons]
    have ha := h a (by simp)
    have ht := ih (fun x hx => h x (by simp [hx]))
    linarith

/-- The selection loop never moves the index backwards. -/
theorem selectGo_ge (total r : ℚ) (rest : List Individual) :
    ∀ (sel : ℕ) (sum : ℚ), sel ≤ selectGo total r sel sum rest := by
  induction rest with
  | nil => intro sel sum; exact le_rfl
  | cons ind t ih =>
    intro sel sum
    simp only [selectGo]
    split
    · exact le_rfl
    · exact le_trans (Nat.le_succ sel) (ih (sel + 1) (sum + ind.fitness))

/-- The selection loop's index stays within the remaining list. -/
theorem selectGo_le (total r : ℚ) (rest : List Individual) :
    ∀ (sel : ℕ) (sum : ℚ), selectGo total r sel sum rest ≤ sel + rest.length := by
  induction rest with
  | nil => intro sel sum; simp [selectGo]
  | cons ind t ih =>
    intro sel sum
    simp only [selectGo, List.length_cons]
    split
    · omega
    · have h := ih (sel + 1) (sum + ind.fitness)
      omega

/-- No cumulative sum strictly before the selected position trips the
threshold. -/
theorem selectGo_not_before (total r : ℚ) (rest : List Individual) :
    ∀ (sel : ℕ) (sum : ℚ) (m : ℕ), sel + m < selectGo total r sel sum rest →
      ¬ (r < (sum + ((rest.take m).map (fun ind => ind.fitness)).sum) / total) := by
  induction rest with
  | nil =>
    intro sel sum m h
    exact absurd h (by simp [selectGo])
  | cons ind t ih =>
    intro sel sum m h
    by_cases hc : r < sum / total
    · simp only [selectGo, if_pos hc] at h
      omega
    · cases m with
      | zero => simpa using hc
      | succ m' =>
        simp only [selectGo, if_neg hc] at h
        have h2 := ih (sel + 1) (sum + ind.fitness) m' (by omega)
        simp only [List.take_succ_cons, List.map_cons, List.sum_cons]
        rw [← add_assoc]
        exact h2

/-- Either the cumulative sum at the selected position trips the threshold,
or the loop exhausted the list and selected the final position. -/
theorem selectGo_trip_or_last (total r : ℚ) (rest : List Individual) :
    ∀ (sel : ℕ) (sum : ℚ),
      (r < (sum + ((rest.take (selectGo total r sel sum rest - sel)).map
        (fun ind => ind.fitness)).sum) / total) ∨
      selectGo total r sel sum rest = sel + rest.length := by
  induction rest with
  | nil => intro sel sum; right; simp [selectGo]
  | cons ind t ih =>
    intro sel sum
    by_cases hc : r < sum / total
    · left
      simp only [selectGo, if_pos hc]
      simpa using hc
    · rcases ih (sel + 1) (sum + ind.fitness) with h | h
      · left
        simp only [selectGo, if_neg hc]
        have hge := selectGo_ge total r t (sel + 1) (sum + ind.fitness)
        have hk : selectGo total r (sel + 1) (sum + ind.fitness) t - sel =
            (selectGo total r (sel + 1) (sum + ind.fitness) t - (sel + 1)) + 1 := by omega
        rw [hk, List.take_succ_cons, List.map_cons, List.sum_cons, ← add_assoc]
        exact h
      · right
        simp only [selectGo, if_neg hc, List.length_cons]
        omega

/-- C7: on a nonempty descending-sorted individual list with positive total
fitness, `_select_random_individual` returns a valid index; no cumulative
fitness fraction strictly before that index exceeds the draw; the returned
index either trips the threshold or is the final index; and the draw `0`
always selects index 0 (the first individual is always a possible outcome). -/
theorem select_roulette_spec (s : List Individual) (total r : ℚ)
    (hs : s ≠ []) (hsorted : List.Sorted fitGE s)
    (htotal : total = totalFitness s) (hpos : 0 < total) :
    selectRandomIndividual s total r < s.length ∧
    (∀ m < selectRandomIndividual s total r, ¬ (r < cumFitness s m / total)) ∧
    (r < cumFitness s (selectRandomIndividual s total r) / total ∨
      selectRandomIndividual s total r = s.length - 1) ∧
    selectRandomIndividual s total 0 = 0 := by
  match s, hs with
  | h :: t, _ =>
    have hdef : ∀ q : ℚ, selectRandomIndividual (h :: t) total q =
        selectGo total q 0 h.fitness t := fun q => rfl
    have hcum : ∀ m : ℕ, cumFitness (h :: t) m =
        h.fitness + ((t.take m).map (fun ind => ind.fitness)).sum := by
      intro m
      rw [cumFitness, List.take_succ_cons, List.map_cons, List.sum_cons]
    have hf : 0 < h.fitness := by
      by_contra hle
      push_neg at hle
      have hsum : totalFitness (h :: t) ≤ 0 := by
        apply list_sum_nonpos
        intro v hv
        simp only [List.mem_map] at hv
        obtain ⟨ind, hind, rfl⟩ := hv
        rcases List.mem_cons.mp hind with rfl | hmt
        · exact hle
        · exact le_trans ((List.sorted_cons.mp hsorted).1 ind hmt) hle
      rw [htotal] at hpos
      linarith
    refine ⟨?_, ?_, ?_, ?_⟩
    · have h1 := selectGo_le total r t 0 h.fitness
      rw [hdef r]
      simp only [List.length_cons]
      omega
    · intro m hm
      rw [hcum m]
      rw [hdef r] at hm
      exact selectGo_not_before total r t 0 h.fitness m (by omega)
    · rcases selectGo_trip_or_last total r t 0 h.fitness with h1 | h1
      · left
        rw [hdef r, hcum]
        have h0 : selectGo total r 0 h.fitness t - 0 = selectGo total r 0 h.fitness t := by omega
        rw [h0] at h1
        exact h1
      · right
        rw [hdef r, h1]
        simp
    · rw [hdef 0]
      cases t with
      | nil => rfl
      | cons ind t' =>
        simp only [selectGo]
        rw [if_pos (div_pos hf hpos)]

/-- Witness for C7 at a concrete sorted two-individual list. -/
theorem select_roulette_spec_witness :
    selectRandomIndividual
      [⟨List.replicate (CHROMOSOME_SIZE * GENE_SIZE) true, [], [], 1/2, 2⟩,
       ⟨List.replicate (CHROMOSOME_SIZE * GENE_SIZE) false, [], [], 1, 1⟩] 3 (1/2) < 2 :=
  (select_roulette_spec
    [⟨List.replicate (CHROMOSOME_SIZE * GENE_SIZE) true, [], [], 1/2, 2⟩,
     ⟨List.replicate (CHROMOSOME_SIZE * GENE_SIZE) false, [], [], 1, 1⟩] 3 (1/2)
    (by simp)
    (List.sorted_cons.mpr
      ⟨(by
          intro b hb
          simp only [List.mem_singleton] at hb
          subst hb
          show (1 : ℚ) ≤ 2
          norm_num),
        List.sorted_singleton _⟩)
    (by rw [totalFitness]; norm_num)
    (by norm_num)).1

/-- Sorting a nonempty individual list yields a nonempty list. -/
theorem sortIndividuals_ne_nil (l : List Individual) (h : l ≠ []) : sortIndividuals l ≠ [] := by
  intro hnil
  apply h
  have hlen := (List.perm_insertionSort fitGE l).length_eq
  rw [sortIndividuals] at hnil
  rw [hnil] at hlen
  exact List.length_eq_zero.mp hlen.symm

/-- The head of the descending-fitness sort dominates the fitness of every
member of the list. -/
theorem fittestOf_sort_ge (l : List Individual) (hl : l ≠ []) :
    ∀ a ∈ l, a.fitness ≤ (fittestOf (sortIndividuals l)).fitness := by
  intro a ha
  have hperm := List.perm_insertionSort fitGE l
  have hsorted := List.sorted_insertionSort fitGE l
  have hmem : a ∈ sortIndividuals l := (hperm.mem_iff).mpr ha
  obtain ⟨h, t, hht⟩ : ∃ h t, sortIndividuals l = h :: t := by
    cases hs : sortIndividuals l with
    | nil => exact absurd hs (sortIndividuals_ne_nil l hl)
    | cons h t => exact ⟨h, t, rfl⟩
  have hsorted2 : List.Sorted fitGE (h :: t) := by
    rw [sortIndividuals] at hht
    rw [← hht]
    exact hsorted
  rw [hht] at hmem
  rw [hht]
  rcases List.mem_cons.mp hmem with rfl | hmt
  · exact le_rfl
  · exact (List.sorted_cons.mp hsorted2).1 a hmt

/-- Taking a positive-size front does not change the head. -/
theorem fittestOf_take (size : ℕ) (l : List Individual) (hsize : 1 ≤ size) (hl : l ≠ []) :
    fittestOf (l.take size) = fittestOf l := by
  cases l with
  | nil => exact absurd rfl hl
  | cons a t =>
    cases size with
    | zero => omega
    | succ m => rfl

/-- One generation step on a nonempty population with positive size yields a
nonempty population. -/
theorem runSingleIteration_ne_nil (size : ℕ) (pop children : List Individual)
    (hsize : 1 ≤ size) (hpop : pop ≠ []) : runSingleIteration size pop children ≠ [] := by
  rw [runSingleIteration]
  have happ : pop ++ children ≠ [] := fun hx => hpop (List.append_eq_nil.mp hx).1
  have h1 := sortIndividuals_ne_nil _ happ
  cases hs : sortIndividuals (pop ++ children) with
  | nil => exact absurd hs h1
  | cons a t =>
    cases size with
    | zero => omega
    | succ m => simp

/-- Every member of the post-step population came from the old population or
from the children. -/
theorem mem_runSingleIteration (size : ℕ) (pop children : List Individual) (ind : Individual)
    (h : ind ∈ runSingleIteration size pop children) : ind ∈ pop ∨ ind ∈ children := by
  rw [runSingleIteration] at h
  have h2 : ind ∈ sortIndividuals (pop ++ children) := List.mem_of_mem_take h
  have h3 : ind ∈ pop ++ children := (List.perm_insertionSort fitGE _).mem_iff.mp h2
  exact List.mem_append.mp h3

/-- The returned fittest individual is a member of a nonempty population. -/
theorem fittestOf_mem (l : List Individual) (hl : l ≠ []) : fittestOf l ∈ l := by
  cases l with
  | nil => exact absurd rfl hl
  | cons a t => exact List.mem_cons_self a t

/-- C3: the individual returned by `run_single_iteration` has fitness at
least the fitness of every individual of the pre-step population (hence at
least the pre-step maximum), and the returned best fitness is monotone
non-decreasing across repeated generation steps. -/
theorem run_single_iteration_monotone (size : ℕ) (pop children : List Individual)
    (hsize : 1 ≤ size) (hpop : pop ≠ []) :
    (∀ ind ∈ pop, ind.fitness ≤ (fittestOf (runSingleIteration size pop children)).fitness) ∧
    ∀ children2 : List Individual,
      (fittestOf (runSingleIteration size pop children)).fitness ≤
        (fittestOf (runSingleIteration size (runSingleIteration size pop children)
          children2)).fitness := by
  have key : ∀ (p c : List Individual), p ≠ [] → ∀ ind ∈ p,
      ind.fitness ≤ (fittestOf (runSingleIteration size p c)).fitness := by
    intro p c hp ind hind
    have happ : p ++ c ≠ [] := fun hx => hp (List.append_eq_nil.mp hx).1
    rw [runSingleIteration, fittestOf_take size _ hsize (sortIndividuals_ne_nil _ happ)]
    exact fittestOf_sort_ge _ happ ind (List.mem_append_left _ hind)
  refine ⟨key pop children hpop, fun children2 => ?_⟩
  have hne := runSingleIteration_ne_nil size pop children hsize hpop
  exact key _ children2 hne _ (fittestOf_mem _ hne)

/-- Witness for C3 at a singleton population. -/
theorem run_single_iteration_monotone_witness :
    (⟨List.replicate (CHROMOSOME_SIZE * GENE_SIZE) false, [], [], 1, 1⟩ : Individual).fitness ≤
      (fittestOf (runSingleIteration 1
        [⟨List.replicate (CHROMOSOME_SIZE * GENE_SIZE) false, [], [], 1, 1⟩] [])).fitness ∧
    (fittestOf (runSingleIteration 1
        [⟨List.replicate (CHROMOSOME_SIZE * GENE_SIZE) false, [], [], 1, 1⟩] [])).fitness ≤
      (fittestOf (runSingleIteration 1 (runSingleIteration 1
        [⟨List.replicate (CHROMOSOME_SIZE * GENE_SIZE) false, [], [], 1, 1⟩] []) [])).fitness :=
  ⟨(run_single_iteration_monotone 1
      [⟨List.replicate (CHROMOSOME_SIZE * GENE_SIZE) false, [], [], 1, 1⟩] []
      (by norm_num) (by simp)).1 _ (List.mem_cons_self _ _),
   (run_single_iteration_monotone 1
      [⟨List.replicate (CHROMOSOME_SIZE * GENE_SIZE) false, [], [], 1, 1⟩] []
      (by norm_num) (by simp)).2 []⟩

/-- C2 (code evaluated at the failing input): on a stored population that is
not in descending-fitness order — exactly the state after random
initialization — the selection indices are computed over the sorted view but
the parent chromosomes are fetched from the stored `self.individuals`, so
the chromosomes passed to crossover are NOT those of the individuals picked
by the fitness-proportionate rule: with stored fitnesses `[1, 2]` and draws
`0` and `7/10`, selection picks sorted positions 0 (fitness 2) and 1
(fitness 1), yet the code fetches the chromosomes in the opposite order. -/
theorem parent_fetch_mismatch :
    parentChromosomes
        [⟨List.replicate (CHROMOSOME_SIZE * GENE_SIZE) false, [], [], 1, 1⟩,
         ⟨List.replicate (CHROMOSOME_SIZE * GENE_SIZE) true, [], [], 1/2, 2⟩] 0 (7/10) =
      some (List.replicate (CHROMOSOME_SIZE * GENE_SIZE) false,
        List.replicate (CHROMOSOME_SIZE * GENE_SIZE) true) ∧
    specSelectedParentChromosomes
        [⟨List.replicate (CHROMOSOME_SIZE * GENE_SIZE) false, [], [], 1, 1⟩,
         ⟨List.replicate (CHROMOSOME_SIZE * GENE_SIZE) true, [], [], 1/2, 2⟩] 0 (7/10) =
      some (List.replicate (CHROMOSOME_SIZE * GENE_SIZE) true,
        List.replicate (CHROMOSOME_SIZE * GENE_SIZE) false) ∧
    parentChromosomes
        [⟨List.replicate (CHROMOSOME_SIZE * GENE_SIZE) false, [], [], 1, 1⟩,
         ⟨List.replicate (CHROMOSOME_SIZE * GENE_SIZE) true, [], [], 1/2, 2⟩] 0 (7/10) ≠
      specSelectedParentChromosomes
        [⟨List.replicate (CHROMOSOME_SIZE * GENE_SIZE) false, [], [], 1, 1⟩,
         ⟨List.replicate (CHROMOSOME_SIZE * GENE_SIZE) true, [], [], 1/2, 2⟩] 0 (7/10) := by
  set A : Individual := ⟨List.replicate (CHROMOSOME_SIZE * GENE_SIZE) false, [], [], 1, 1⟩
    with hA
  set B : Individual := ⟨List.replicate (CHROMOSOME_SIZE * GENE_SIZE) true, [], [], 1/2, 2⟩
    with hB
  have hAB : ¬ fitGE A B := by
    rw [fitGE, hA, hB]
    norm_num
  have hsort : sortIndividuals [A, B] = [B, A] := by
    rw [sortIndividuals]
    show List.orderedInsert fitGE A (List.orderedInsert fitGE B []) = [B, A]
    rw [List.orderedInsert_nil, List.orderedInsert, if_neg hAB, List.orderedInsert_nil]
  have htot : totalFitness [A, B] = 3 := by
    rw [totalFitness, hA, hB]
    norm_num
  have hsel1 : selectRandomIndividual [B, A] 3 0 = 0 := by
    show selectGo 3 0 0 B.fitness [A] = 0
    rw [selectGo]
    rw [if_pos]
    rw [hB]
    norm_num
  have hsel2 : selectRandomIndividual [B, A] 3 (7/10) = 1 := by
    show selectGo 3 (7/10) 0 B.fitness [A] = 1
    rw [selectGo]
    rw [if_neg]
    · rfl
    · rw [hB]
      norm_num
  refine ⟨?_, ?_, ?_⟩
  · rw [parentChromosomes]
    simp only [hsort, htot, hsel1, hsel2]
    rw [if_pos (by norm_num)]
    rfl
  · rw [specSelectedParentChromosomes]
    simp only [hsort, htot, hsel1, hsel2]
    rw [if_pos (by norm_num)]
    rfl
  · rw [parentChromosomes, specSelectedParentChromosomes]
    simp only [hsort, htot, hsel1, hsel2]
    rw [if_pos (by norm_num), if_pos (by norm_num)]
    simp only [hA, hB]
    intro hcontra
    have h1 := (Prod.mk.injEq _ _ _ _ ▸ (Option.some.injEq _ _ ▸ hcontra)).1
    have h2 : (List.replicate (CHROMOSOME_SIZE * GENE_SIZE) false).getD 0 true =
        (List.replicate (CHROMOSOME_SIZE * GENE_SIZE) true).getD 0 true := by
      exact congrArg (fun l => l.getD 0 true) h1
    revert h2
    decide

/-- Summing a mapped filter equals summing the if-guarded map. -/
theorem filter_map_sum (p : ℕ → Prop) [DecidablePred p] (f : ℕ → ℚ) (l : List ℕ) :
    ((l.filter (fun j => decide (p j))).map f).sum =
      (l.map (fun j => if p j then f j else 0)).sum := by
  induction l with
  | nil => rfl
  | cons a t ih =>
    by_cases hpa : p a
    · simp [List.filter_cons, hpa, ih]
    · simp [List.filter_cons, hpa, ih]

/-- Summing a function mapped over `List.range` equals the `Finset.range` sum. -/
theorem range_map_sum (f : ℕ → ℚ) (n : ℕ) :
    ((List.range n).map f).sum = ∑ j ∈ Finset.range n, f j := by
  induction n with
  | zero => rfl
  | succ m ih =>
    rw [List.range_succ, Finset.sum_range_succ, List.map_append, List.sum_append, ih]
    simp

/-- Nonemptiness of the coupling-neighbor list is existence of an incoming
neighbor with a nonzero adjacency weight. -/
theorem couplingNeighbors_ne_nil_iff (n : ℕ) (A : ℕ → ℕ → ℚ) (i : ℕ) :
    couplingNeighbors n A i ≠ [] ↔ ∃ j, j < n ∧ j ≠ i ∧ A j i ≠ 0 := by
  rw [couplingNeighbors]
  constructor
  · intro h
    obtain ⟨j, hj⟩ := List.exists_mem_of_ne_nil _ h
    have hj2 := List.mem_filter.mp hj
    have hj3 := of_decide_eq_true hj2.2
    exact ⟨j, List.mem_range.mp hj2.1, hj3⟩
  · rintro ⟨j, hjn, hji⟩ h
    have : j ∈ (List.range n).filter (fun j => decide (j ≠ i ∧ A j i ≠ 0)) :=
      List.mem_filter.mpr ⟨List.mem_range.mpr hjn, decide_eq_true hji⟩
    rw [h] at this
    exact absurd this (List.not_mem_nil j)

/-- Row `t` of node `i`'s block, extracted from the block. -/
theorem nodeTheta_getD (n T : ℕ) (x A : ℕ → ℕ → ℚ) (pw : ℚ → ℚ → ℚ) (powers : List ℚ)
    (i t : ℕ) (ht : t < T) :
    (nodeTheta n T x A pw powers i).getD t [] = thetaRow n x A pw powers i t := by
  rw [nodeTheta, List.getD_eq_getElem?_getD, List.getElem?_map, List.getElem?_range ht]
  rfl

/-- C5: in the design block of node `i` over the first `T` time samples,
column 0 is all ones and column 1 is `x[t,i] ** powers[0]`; a third coupling
column is present exactly when some node `j ≠ i` has `A[j,i] ≠ 0`, and then
equals the sum over all such `j` of `A[j,i] * x[t,i] ** powers[1] * x[t,j] ** powers[2]`;
when every node has such an in-neighbor the stacked design matrix has
`n * T` rows of exactly 3 columns. -/
theorem theta_structure (n T : ℕ) (x A : ℕ → ℕ → ℚ) (pw : ℚ → ℚ → ℚ) (powers : List ℚ)
    (i t : ℕ) (hi : i < n) (ht : t < T) :
    ((nodeTheta n T x A pw powers i).getD t []).getD 0 0 = 1 ∧
    ((nodeTheta n T x A pw powers i).getD t []).getD 1 0 = pw (x t i) (powers.getD 0 0) ∧
    ((∃ j, j < n ∧ j ≠ i ∧ A j i ≠ 0) →
      (nodeTheta n T x A pw powers i).getD t [] =
        [1, pw (x t i) (powers.getD 0 0),
          ∑ j ∈ Finset.range n, if j ≠ i ∧ A j i ≠ 0 then
            A j i * pw (x t i) (powers.getD 1 0) * pw (x t j) (powers.getD 2 0) else 0]) ∧
    ((¬ ∃ j, j < n ∧ j ≠ i ∧ A j i ≠ 0) →
      (nodeTheta n T x A pw powers i).getD t [] = [1, pw (x t i) (powers.getD 0 0)]) ∧
    ((∀ i', i' < n → ∃ j, j < n ∧ j ≠ i' ∧ A j i' ≠ 0) →
      (getTheta n T x A pw powers).length = n * T ∧
      ∀ row ∈ getTheta n T x A pw powers, row.length = 3) := by
  have hrow := nodeTheta_getD n T x A pw powers i t ht
  have hcoupling : couplingColumnEntry n x A pw powers i t =
      ∑ j ∈ Finset.range n, if j ≠ i ∧ A j i ≠ 0 then
        A j i * pw (x t i) (powers.getD 1 0) * pw (x t j) (powers.getD 2 0) else 0 := by
    rw [couplingColumnEntry, couplingNeighbors,
      filter_map_sum (fun j => j ≠ i ∧ A j i ≠ 0)
        (fun j => A j i * pw (x t i) (powers.getD 1 0) * pw (x t j) (powers.getD 2 0)),
      range_map_sum]
  refine ⟨?_, ?_, ?_, ?_, ?_⟩
  · rw [hrow, thetaRow]
    rfl
  · rw [hrow, thetaRow]
    rfl
  · intro hex
    have hne : couplingNeighbors n A i ≠ [] := (couplingNeighbors_ne_nil_iff n A i).mpr hex
    rw [hrow, thetaRow, if_neg hne, hcoupling]
    rfl
  · intro hnex
    have hnil : couplingNeighbors n A i = [] := by
      by_contra hne
      exact hnex ((couplingNeighbors_ne_nil_iff n A i).mp hne)
    rw [hrow, thetaRow, if_pos hnil]
    rfl
  · intro hall
    constructor
    · rw [getTheta, List.length_flatten, List.map_map]
      have hcomp : (List.length ∘ nodeTheta n T x A pw powers) = fun _ => T := by
        funext i'
        show (nodeTheta n T x A pw powers i').length = T
        rw [nodeTheta, List.length_map, List.length_range]
      rw [hcomp]
      have hconst : (List.range n).map (fun _ => T) = List.replicate n T := by
        rw [List.map_const', List.length_range]
      rw [hconst, List.sum_replicate, smul_eq_mul]
    · intro row hrow
      rw [getTheta] at hrow
      obtain ⟨block, hblock, hrowin⟩ := List.mem_flatten.mp hrow
      obtain ⟨i', hi', rfl⟩ := List.mem_map.mp hblock
      rw [nodeTheta] at hrowin
      obtain ⟨t', ht', rfl⟩ := List.mem_map.mp hrowin
      have hne : couplingNeighbors n A i' ≠ [] :=
        (couplingNeighbors_ne_nil_iff n A i').mpr (hall i' (List.mem_range.mp hi'))
      rw [thetaRow, if_neg hne]
      rfl

/-- Witness for C5 at a concrete two-node network with both couplings
present. -/
theorem theta_structure_witness :
    ((nodeTheta 2 1 (fun _ _ => 2)
        (fun j i => if j = 1 ∧ i = 0 then 1 else if j = 0 ∧ i = 1 then 1 else 0)
        (fun a b => a + b) [1, 1, 1] 0).getD 0 []).getD 0 0 = 1 :=
  (theta_structure 2 1 (fun _ _ => 2)
    (fun j i => if j = 1 ∧ i = 0 then 1 else if j = 0 ∧ i = 1 then 1 else 0)
    (fun a b => a + b) [1, 1, 1] 0 0 (by norm_num) (by norm_num)).1

/-- Fitness of the completed individual of any full-length chromosome is an
attainable fitness value. -/
theorem mem_fitnessValues (evalInd : List Bool → Individual) (c : List Bool)
    (hc : c.length = CHROMOSOME_SIZE * GENE_SIZE) :
    (evalInd c).fitness ∈ fitnessValues evalInd := by
  have hchrom : chromFromFn (fun j : Fin (CHROMOSOME_SIZE * GENE_SIZE) => c.getD j false) = c := by
    apply List.ext_get
    · rw [chromFromFn, List.length_ofFn, hc]
    · intro m h1 h2
      simp only [chromFromFn, List.get_ofFn]
      show c.getD m false = c.get ⟨m, h2⟩
      rw [List.getD_eq_getElem?_getD, List.getElem?_eq_getElem h2]
      rfl
  rw [fitnessValues, ← hchrom]
  exact Finset.mem_image_of_mem _ (Finset.mem_univ _)

/-- One driver-loop step preserves the driver invariant while the loop
condition holds. -/
theorem driverStep_inv (evalInd : List Bool → Individual) (size : ℕ)
    (cc : List (List Bool)) (s : DriverState) (hsize : 1 ≤ size)
    (hinv : DriverInv evalInd s)
    (hcc : ∀ c ∈ cc, c.length = CHROMOSOME_SIZE * GENE_SIZE)
    (hrun : s.counter - s.bestIndex < TERMINATION_CONDITION) :
    DriverInv evalInd (driverStep evalInd size cc s) := by
  obtain ⟨hpop, hfit, hbi, hdiff⟩ := hinv
  have hnew : runSingleIteration size s.pop (cc.map evalInd) ≠ [] :=
    runSingleIteration_ne_nil size _ _ hsize hpop
  have hnewfit : ∀ ind ∈ runSingleIteration size s.pop (cc.map evalInd),
      ind.fitness ∈ fitnessValues evalInd := by
    intro ind hind
    rcases mem_runSingleIteration _ _ _ _ hind with h | h
    · exact hfit ind h
    · obtain ⟨c, hccmem, rfl⟩ := List.mem_map.mp h
      exact mem_fitnessValues evalInd c (hcc c hccmem)
  rw [DriverInv, driverStep]
  split
  · exact ⟨hnew, hnewfit, le_rfl, by simp⟩
  · exact ⟨hnew, hnewfit, by simp only; omega, by simp only; omega⟩

/-- One driver-loop step strictly decreases the termination measure while
the loop condition holds. -/
theorem driverStep_measure (evalInd : List Bool → Individual) (size : ℕ)
    (cc : List (List Bool)) (s : DriverState) (hsize : 1 ≤ size)
    (hinv : DriverInv evalInd s)
    (hcc : ∀ c ∈ cc, c.length = CHROMOSOME_SIZE * GENE_SIZE)
    (hrun : s.counter - s.bestIndex < TERMINATION_CONDITION) :
    driverMeasure evalInd (driverStep evalInd size cc s) < driverMeasure evalInd s := by
  obtain ⟨hpop, hfit, hbi, hdiff⟩ := hinv
  have hnew : runSingleIteration size s.pop (cc.map evalInd) ≠ [] :=
    runSingleIteration_ne_nil size _ _ hsize hpop
  have hfitmem : (fittestOf (runSingleIteration size s.pop (cc.map evalInd))).fitness ∈
      fitnessValues evalInd := by
    rcases mem_runSingleIteration _ _ _ _ (fittestOf_mem _ hnew) with h | h
    · exact hfit _ h
    · obtain ⟨c, hccmem, hceq⟩ := List.mem_map.mp h
      exact hceq ▸ mem_fitnessValues evalInd c (hcc c hccmem)
  rw [driverStep]
  split
  case isTrue himp =>
    simp only [driverMeasure]
    have hsub : Finset.filter
        (fun v => (fittestOf (runSingleIteration size s.pop (cc.map evalInd))).fitness < v)
        (fitnessValues evalInd) ⊆
        Finset.filter (fun v => s.bestFitness < v) (fitnessValues evalInd) := by
      intro v hv
      have hv2 := Finset.mem_filter.mp hv
      exact Finset.mem_filter.mpr ⟨hv2.1, lt_trans himp hv2.2⟩
    have hmem2 : (fittestOf (runSingleIteration size s.pop (cc.map evalInd))).fitness ∈
        Finset.filter (fun v => s.bestFitness < v) (fitnessValues evalInd) :=
      Finset.mem_filter.mpr ⟨hfitmem, himp⟩
    have hnot : (fittestOf (runSingleIteration size s.pop (cc.map evalInd))).fitness ∉
        Finset.filter
          (fun v => (fittestOf (runSingleIteration size s.pop (cc.map evalInd))).fitness < v)
          (fitnessValues evalInd) :=
      fun hmem => lt_irrefl _ (Finset.mem_filter.mp hmem).2
    have hcard : (Finset.filter
        (fun v => (fittestOf (runSingleIteration size s.pop (cc.map evalInd))).fitness < v)
        (fitnessValues evalInd)).card <
        (Finset.filter (fun v => s.bestFitness < v) (fitnessValues evalInd)).card :=
      Finset.card_lt_card (Finset.ssubset_iff_of_subset hsub |>.mpr
        ⟨_, hmem2, hnot⟩)
    simp only [TERMINATION_CONDITION] at *
    omega
  case isFalse himp =>
    simp only [driverMeasure, TERMINATION_CONDITION] at *
    omega

/-- Within any measure bound, the driver loop reaches the stagnation
threshold: some iterate has exactly `TERMINATION_CONDITION` generations
since the last improvement, the loop's exit condition. -/
theorem driverRun_reaches (evalInd : List Bool → Individual) (size : ℕ) (hsize : 1 ≤ size) :
    ∀ (m : ℕ) (cs : ℕ → List (List Bool)) (s : DriverState),
      DriverInv evalInd s →
      (∀ (k : ℕ), ∀ c ∈ cs k, c.length = CHROMOSOME_SIZE * GENE_SIZE) →
      driverMeasure evalInd s ≤ m →
      ∃ iters, (driverRun evalInd size iters cs s).counter -
        (driverRun evalInd size iters cs s).bestIndex = TERMINATION_CONDITION := by
  intro m
  induction m with
  | zero =>
    intro cs s hinv hcs hm
    refine ⟨0, ?_⟩
    obtain ⟨_, _, hbi, hdiff⟩ := hinv
    simp only [driverRun]
    simp only [driverMeasure, TERMINATION_CONDITION] at *
    omega
  | succ m ih =>
    intro cs s hinv hcs hm
    by_cases hrun : s.counter - s.bestIndex < TERMINATION_CONDITION
    · have hstep := driverStep_measure evalInd size (cs 0) s hsize hinv
        (fun c hc => hcs 0 c hc) hrun
      obtain ⟨iters, hn⟩ := ih (fun k => cs (k + 1)) (driverStep evalInd size (cs 0) s)
        (driverStep_inv evalInd size (cs 0) s hsize hinv (fun c hc => hcs 0 c hc) hrun)
        (fun k c hc => hcs (k + 1) c hc)
        (by omega)
      exact ⟨iters + 1, hn⟩
    · obtain ⟨_, _, hbi, hdiff⟩ := hinv
      refine ⟨0, ?_⟩
      simp only [driverRun]
      omega

/-- C4: for every evaluation context, random stream and well-formed start
state, the driver loop of `run` terminates, exiting exactly when the number
of iterations since the last strict improvement of the best fitness reaches
the stagnation threshold `TERMINATION_CONDITION`; the proof rests on the
chromosome space being finite (`2 ^ (CHROMOSOME_SIZE * GENE_SIZE)`
chromosomes, hence finitely many attainable fitness values) and the
recorded best fitness strictly increasing at every improvement. -/
theorem driver_loop_terminates (evalInd : List Bool → Individual) (size : ℕ)
    (cs : ℕ → List (List Bool)) (s : DriverState)
    (hsize : 1 ≤ size) (hpop : s.pop ≠ [])
    (hfit : ∀ ind ∈ s.pop, ind.fitness ∈ fitnessValues evalInd)
    (hbi : s.bestIndex ≤ s.counter)
    (hdiff : s.counter - s.bestIndex ≤ TERMINATION_CONDITION)
    (hcs : ∀ (k : ℕ), ∀ c ∈ cs k, c.length = CHROMOSOME_SIZE * GENE_SIZE) :
    ∃ iters, (driverRun evalInd size iters cs s).counter -
      (driverRun evalInd size iters cs s).bestIndex = TERMINATION_CONDITION :=
  driverRun_reaches evalInd size hsize (driverMeasure evalInd s) cs s
    ⟨hpop, hfit, hbi, hdiff⟩ hcs le_rfl

/-- Witness for C4 at the concrete initial driver state of `run`. -/
theorem driver_loop_terminates_witness :
    ∃ iters,
      (driverRun (fun c => ⟨c, [], [], 1, 1⟩) 1 iters (fun _ => [])
        ⟨0, 0, 0, [⟨List.replicate (CHROMOSOME_SIZE * GENE_SIZE) false, [], [], 1, 1⟩]⟩).counter -
      (driverRun (fun c => ⟨c, [], [], 1, 1⟩) 1 iters (fun _ => [])
        ⟨0, 0, 0, [⟨List.replicate (CHROMOSOME_SIZE * GENE_SIZE) false, [], [], 1, 1⟩]⟩).bestIndex =
        TERMINATION_CONDITION :=
  driver_loop_terminates (fun c => ⟨c, [], [], 1, 1⟩) 1 (fun _ => [])
    ⟨0, 0, 0, [⟨List.replicate (CHROMOSOME_SIZE * GENE_SIZE) false, [], [], 1, 1⟩]⟩
    le_rfl (by simp)
    (by
      intro ind hind
      simp only [List.mem_singleton] at hind
      subst hind
      exact Finset.mem_image.mpr ⟨fun _ => false, Finset.mem_univ _, rfl⟩)
    le_rfl (by simp)
    (by intro k c hc; exact absurd hc (List.not_mem_nil c))
